import Mathlib

/-!
A shallow embedding of the geometric-algebra engine in `src/ga.ts`
(class `Algebra`, class `MatrixMath`).

Multivectors are the TypeScript `MultiVector` objects: string-keyed
records with numeric values.  A JS object is modelled as an association
list `List (String × α)` whose list order is the object's key insertion
order (all keys here start with `e`, so JS integer-key reordering never
applies).  Coefficients are taken in a commutative ring `α`; the claims
are stated at `α = ℚ` (exact arithmetic, every concrete JS number in the
repository is rational) except `normalize`, which calls `Math.sqrt` and
is therefore modelled at `α = ℝ`.

The Cayley tables of the source are plain objects holding one entry per
ordered pair of basis blades, each entry computed independently of all
others by the loop body of `makeWedgeTable` / `makeGeometricProductTable`
/ `makeDualTable` / `makeAntiTable`.  They are embedded as the entry
functions (`makeWedgeEntry`, ...): `table[ea][eb]` of the source is
`makeWedgeEntry A ea eb` here, for `ea`, `eb` in the basis.
-/

namespace GaTs

/-- A JS `MultiVector` object: insertion-ordered key/value pairs. -/
abbrev MV (α : Type) := List (String × α)

/-- JS property read `v[key]`: value of the first (only) entry with that key. -/
def objGet {α : Type} (v : MV α) (key : String) : Option α :=
  (v.find? (fun p => p.1 == key)).map Prod.snd

/-- JS `v[key] ?? 0` / `v[key] || 0`. -/
def objGetD {α : Type} [Zero α] (v : MV α) (key : String) : α :=
  (objGet v key).getD 0

/-- JS property write `v[key] = x`: updates in place if the key exists
(keeping its position), otherwise appends the new key last. -/
def objSet {α : Type} (v : MV α) (key : String) (x : α) : MV α :=
  if v.any (fun p => p.1 == key) then
    v.map (fun p => if p.1 == key then (key, x) else p)
  else
    v ++ [(key, x)]

/-- JS `delete v[key]`. -/
def objDelete {α : Type} (v : MV α) (key : String) : MV α :=
  v.filter (fun p => p.1 != key)

/-- Source `Algebra.isZero`: a multivector is zero iff it has no keys. -/
def isZero {α : Type} (v : MV α) : Bool :=
  v.isEmpty

/-- Source `Algebra.getBasis`: the first key of the object, or `?` if it has none. -/
def getBasis {α : Type} (v : MV α) : String :=
  match v with
  | [] => "?"
  | p :: _ => p.1

/-- The accumulation step shared by `cayleyMul`, `dual`, `unDual` and
`leftContract`: `answer[r] = (answer[r] || 0) + n; if (!answer[r]) delete answer[r]`. -/
def accumulate {α : Type} [AddCommMonoid α] [DecidableEq α]
    (answer : MV α) (key : String) (n : α) : MV α :=
  let newv := objGetD answer key + n
  if newv = 0 then objDelete answer key else objSet answer key newv

/-- The state an `Algebra` is constructed from: the per-vector squares and
subscripts.  For the numeric-counts constructor form see `makeCountAlgebra`;
for the basis-map form the two lists are the declared `square`/`subscript`
fields in order.  Every other field of the TypeScript class is derived from
these two lists and embedded below as a function of the algebra. -/
structure GAAlgebra (α : Type) where
  squares : List α
  subscripts : List String

/-- Source `this.degree = this.squares.length`. -/
def gaDegree {α : Type} (A : GAAlgebra α) : ℕ :=
  A.squares.length

/-- The numeric constructor branch `new Algebra(positive, negative, zero)`:
`squares = [] ++ zeros ++ ones ++ minusOnes`, subscripts `"1".."n"`. -/
def makeCountAlgebra (α : Type) [CommRing α]
    (positiveCount negativeCount zeroCount : ℕ) : GAAlgebra α :=
  { squares := List.replicate zeroCount (0 : α) ++ List.replicate positiveCount 1 ++
      List.replicate negativeCount (-1)
    subscripts :=
      (List.range (zeroCount + positiveCount + negativeCount)).map
        (fun i => toString (i + 1)) }

/-- Lookup in a JS `Map` built by repeated `set` calls: the last write wins. -/
def mapLookup {β γ : Type} [BEq β] (pairs : List (β × γ)) (k : β) : Option γ :=
  pairs.foldl (fun acc p => if p.1 == k then some p.2 else acc) none

/-- Source `subscriptOrder`: position of a subscript in the declared order
(`subscripts.forEach((s, i) => subscriptOrder.set(s, i))`). -/
def subscriptOrder {α : Type} (A : GAAlgebra α) (s : String) : Option ℕ :=
  mapLookup (A.subscripts.enum.map (fun p => (p.2, p.1))) s

/-- Source `subscriptOrder.get(x)!` as it is used in the sort comparisons. The
non-null assertion is sound on parsed subscripts; an absent subscript is
replaced by 0, on which the JS comparison `undefined > undefined` and
`0 > 0` agree (both are false). -/
def ordD {α : Type} (A : GAAlgebra α) (s : String) : ℕ :=
  (subscriptOrder A s).getD 0

/-- Source `Algebra.bits(n)`: the positions of the 1-bits of `n`, ascending. -/
def bitsOf (n : ℕ) : List ℕ :=
  (List.range (n + 1)).filter (fun i => n.testBit i)

/-- The bitmap of a 1-bit position list
(`ones.reduce((acc, bit) => acc | (1 << bit), 0)`). -/
def bitsToBitmap (ones : List ℕ) : ℕ :=
  ones.foldl (fun acc bit => acc ||| (1 <<< bit)) 0

/-- One insertion step of a stable comparator sort. -/
def insertCmp {β : Type} (cmp : β → β → Int) (x : β) : List β → List β
  | [] => [x]
  | y :: ys => if cmp x y ≤ 0 then x :: y :: ys else y :: insertCmp cmp x ys

/-- JS `Array.prototype.sort(comparator)`: a stable comparator sort
(insertion sort; ES2019 requires sort stability, and every comparator used
by the source is a total order, so the result is the unique stable order). -/
def sortCmp {β : Type} (cmp : β → β → Int) : List β → List β
  | [] => []
  | x :: xs => insertCmp cmp x (sortCmp cmp xs)

/-- The recursive list comparison `comp` inside `makeBasis`:
`a[0] === b[0] && a.length > 1 ? comp(a.slice(1), b.slice(1)) : a[0] - b[0]`.
(It is only ever called on equal-length, nonempty, distinct lists.) -/
def compLists : List ℕ → List ℕ → Int
  | a :: as, b :: bs =>
      if a = b ∧ as.length ≥ 1 then compLists as bs else (a : Int) - (b : Int)
  | _, _ => 0

/-- The comparator passed to `sort` in `makeBasis`: length first, then
`compLists`. -/
def basisCmp (a b : List ℕ) : Int :=
  if a.length ≠ b.length then (a.length : Int) - (b.length : Int) else compLists a b

/-- Source `makeBasis`'s `sortedOnesMap`: all `2^degree` one-positions lists,
sorted by grade then by position-lexicographic order. -/
def gaSortedOnesMap {α : Type} (A : GAAlgebra α) : List (List ℕ) :=
  sortCmp basisCmp ((List.range (2 ^ gaDegree A)).map bitsOf)

/-- Source `this.basis`: blade names `"e" + subscripts of the bits`, in table order.
`subscripts[bit]` cannot be out of range for a well-formed algebra
(`squares` and `subscripts` have equal length); the `getD` default is a
placeholder for the unreachable JS `undefined`. -/
def gaBasis {α : Type} (A : GAAlgebra α) : List String :=
  (gaSortedOnesMap A).map
    (fun ones => "e" ++ String.join (ones.map (fun bit => A.subscripts.getD bit "")))

/-- The bitmap of each basis blade, in the same order as `gaBasis`. -/
def gaBitmaps {α : Type} (A : GAAlgebra α) : List ℕ :=
  (gaSortedOnesMap A).map bitsToBitmap

/-- Source `this.basisBitmap`: blade name → bitmap. -/
def basisBitmap {α : Type} (A : GAAlgebra α) (name : String) : Option ℕ :=
  mapLookup ((gaBasis A).zip (gaBitmaps A)) name

/-- Source `this.bitmapBasis`: bitmap → blade name. -/
def bitmapBasis {α : Type} (A : GAAlgebra α) (bm : ℕ) : Option String :=
  mapLookup ((gaBitmaps A).zip (gaBasis A)) bm

/-- The popcount loop of `gradeOfBasis`, with a fuel argument standing in
for the loop's progress (`n` halves each iteration, so `n` itself is
always enough fuel):
`while (n) { count += n & 1; n >>= 1; }`. -/
def popcountGo : ℕ → ℕ → ℕ
  | 0, _ => 0
  | fuel + 1, n => if n = 0 then 0 else n % 2 + popcountGo fuel (n / 2)

/-- The number of 1-bits of `n`. -/
def popcount (n : ℕ) : ℕ :=
  popcountGo n n

/-- Source `Algebra.gradeOfBasis`: popcount of the blade's bitmap, `-1` if the
name is unknown. -/
def gradeOfBasis {α : Type} (A : GAAlgebra α) (name : String) : Int :=
  match basisBitmap A name with
  | none => -1
  | some bm => (popcount bm : Int)

/-- The loop body of `Algebra.sortVector` for one canonical key:
`if (v[key]) sorted[key] = v[key]` — emit the entry when the key is
present with a truthy (nonzero) coefficient. -/
def sortFn {α : Type} [Zero α] [DecidableEq α] (v : MV α) (key : String) :
    Option (String × α) :=
  match objGet v key with
  | some c => if c = 0 then none else some (key, c)
  | none => none

/-- Source `Algebra.sortVector`: re-emit the entries in canonical basis order,
dropping falsy (zero) coefficients. -/
def sortVector {α : Type} [Zero α] [DecidableEq α] (A : GAAlgebra α) (v : MV α) : MV α :=
  (gaBasis A).filterMap (sortFn v)

/-- Prefix test on character lists (kernel-reducible form of
`String.startsWith`'s specification). -/
def charsPrefix : List Char → List Char → Bool
  | [], _ => true
  | _ :: _, [] => false
  | c :: cs, d :: ds => c == d && charsPrefix cs ds

/-- Source `s.startsWith pre` (JS `s.startsWith(sub, pos)` after the consumed
prefix has been dropped). -/
def strStartsWith (s pre : String) : Bool :=
  charsPrefix pre.data s.data

/-- Source `s.substring(n)` / dropping the first `n` characters. -/
def strDrop (s : String) (n : ℕ) : String :=
  ⟨s.data.drop n⟩

/-- The subscripts sorted longest-first for greedy matching
(`[...this.subscripts].sort((a, b) => b.length - a.length)`, stable). -/
def sortedSubsLongFirst {α : Type} (A : GAAlgebra α) : List String :=
  sortCmp (fun a b => (b.length : Int) - (a.length : Int)) A.subscripts

/-- The greedy matching loop of `parseSubscripts`, on the not-yet-consumed
suffix of the name.  The fuel argument (initially more than the string
length) stands in for the loop's progress: each successful match consumes
at least one character, so fuel exhaustion is unreachable; `none` is the
`throw new Error` path. -/
def parseGo (sorted : List String) : ℕ → String → Option (List String)
  | 0, _ => none
  | fuel + 1, s =>
      if s = "" then some []
      else
        match sorted.find? (fun sub => strStartsWith s sub) with
        | none => none
        | some sub =>
            (parseGo sorted fuel (strDrop s sub.length)).map (fun rest => sub :: rest)

/-- Source `Algebra.parseSubscripts`: split a basis name like `e12` into subscript
strings `["1", "2"]` by greedy longest-first matching; `none` is the thrown
parse error. -/
def parseSubscripts {α : Type} (A : GAAlgebra α) (basisName : String) : Option (List String) :=
  let s := if strStartsWith basisName "e" then strDrop basisName 1 else basisName
  parseGo (sortedSubsLongFirst A) (s.length + 1) s

/-- Source `parseSubscripts` with the unreachable error case mapped to `[]`; every
use in the claims is on a valid basis name, where the two agree. -/
def parseSubs {α : Type} (A : GAAlgebra α) (basisName : String) : List String :=
  (parseSubscripts A basisName).getD []

/-- One inner bubble pass (`for (let i = 0; i < last; i++)`) over the
subscript list, with `k` comparisons remaining.  Returns the updated list,
the number of swaps made, the `swapped` flag, and the `zero` flag (set when
two equal subscripts become adjacent; only the wedge loop reads it). -/
def bubblePass (ord : String → ℕ) : ℕ → List String → List String × ℕ × Bool × Bool
  | 0, l => (l, 0, false, false)
  | _ + 1, [] => ([], 0, false, false)
  | _ + 1, [x] => ([x], 0, false, false)
  | k + 1, x :: y :: rest =>
      if x = y then
        let (l2, s, sw, _) := bubblePass ord k (y :: rest)
        (x :: l2, s, sw, true)
      else if ord y < ord x then
        let (l2, s, _sw, z) := bubblePass ord k (x :: rest)
        (y :: l2, s + 1, true, z)
      else
        let (l2, s, sw, z) := bubblePass ord k (y :: rest)
        (x :: l2, s, sw, z)

/-- The outer wedge sort loop `while (last > 0 && swapped && !zero)`.
Arguments: remaining `last`, current `swapped` and `zero` flags, the list,
the accumulated swap count.  Returns the list, swap count, and zero flag. -/
def bubbleLoopWedge (ord : String → ℕ) :
    ℕ → Bool → Bool → List String → ℕ → List String × ℕ × Bool
  | 0, _, zeroFlag, l, swaps => (l, swaps, zeroFlag)
  | last + 1, swapped, zeroFlag, l, swaps =>
      if swapped ∧ !zeroFlag then
        let (l2, s, sw, z) := bubblePass ord (last + 1) l
        bubbleLoopWedge ord last sw (zeroFlag || z) l2 (swaps + s)
      else (l, swaps, zeroFlag)

/-- The outer geometric-product sort loop `while (last > 0 && swapped)`
(same pass, the `zero` flag is not consulted). -/
def bubbleLoopGP (ord : String → ℕ) :
    ℕ → Bool → List String → ℕ → List String × ℕ
  | 0, _, l, swaps => (l, swaps)
  | last + 1, swapped, l, swaps =>
      if swapped then
        let (l2, s, sw, _) := bubblePass ord (last + 1) l
        bubbleLoopGP ord last sw l2 (swaps + s)
      else (l, swaps)

/-- The loop body of `makeWedgeTable` for one ordered pair of blades:
concatenate the subscript sequences, bubble sort counting swaps, zero on a
repeated subscript, otherwise the sorted blade signed by swap parity. -/
def makeWedgeEntry {α : Type} [CommRing α] (A : GAAlgebra α) (ea eb : String) : MV α :=
  let result := parseSubs A ea ++ parseSubs A eb
  let (res, swaps, zeroFlag) :=
    bubbleLoopWedge (ordD A) (result.length - 1) true false result 0
  if zeroFlag then []
  else [("e" ++ String.join res, if swaps % 2 = 1 then (-1 : α) else 1)]

/-- Source `this.squares[this.subscripts.indexOf(x)]`, `none` when the subscript is
unknown (JS `undefined`, which the collapse loop treats like a negative
square since `undefined === 0` and `undefined == 1` are both false). -/
def squareOfSub {α : Type} (A : GAAlgebra α) (s : String) : Option α :=
  (A.subscripts.indexOf? s).bind (fun i => A.squares.get? i)

/-- The collapse loop of `makeGeometricProductTable`: remove each equal
adjacent pair according to its square (0 kills the whole entry — the
source marks this by overwriting its result string with the sentinel "0",
modelled as `none`; +1 removes silently; otherwise remove and count one
extra sign flip).  Returns the remaining concatenated subscripts and the
number of extra flips. -/
def collapseGo {α : Type} [CommRing α] [DecidableEq α] (A : GAAlgebra α) :
    List String → Option String × ℕ
  | [] => (some "", 0)
  | [x] => (some x, 0)
  | x :: y :: rest =>
      if x = y then
        match squareOfSub A x with
        | some s =>
            if s = 0 then (none, 0)
            else if s = 1 then collapseGo A rest
            else
              let p := collapseGo A rest
              (p.1, p.2 + 1)
        | none =>
            let p := collapseGo A rest
            (p.1, p.2 + 1)
      else
        let p := collapseGo A (y :: rest)
        (p.1.map (fun t => x ++ t), p.2)

/-- The loop body of `makeGeometricProductTable` for one ordered pair:
bubble sort the concatenated subscripts counting swaps, collapse equal
adjacent pairs by their squares, sign by total parity. -/
def makeGeometricProductEntry {α : Type} [CommRing α] [DecidableEq α]
    (A : GAAlgebra α) (ea eb : String) : MV α :=
  let result := parseSubs A ea ++ parseSubs A eb
  let (res, swaps) := bubbleLoopGP (ordD A) (result.length - 1) true result 0
  match collapseGo A res with
  | (none, _) => []
  | (some s, extra) =>
      [("e" ++ s, if (swaps + extra) % 2 = 1 then (-1 : α) else 1)]

/-- Which dual table (`makeDualTable(side)`). -/
inductive DualSide where
  | left
  | right
deriving DecidableEq

/-- The loop body of `makeDualTable` for one blade: the complement blade is
found by XOR with the pseudoscalar bitmap through the bitmap↔blade maps,
and the sign is read off the wedge entry `(complement, blade)` (left) or
`(blade, complement)` (right).  The `getD` defaults stand for unreachable
JS `undefined` on valid blade names. -/
def makeDualEntry {α : Type} [CommRing α] (A : GAAlgebra α)
    (side : DualSide) (ea : String) : MV α :=
  let allBits := (1 <<< gaDegree A) - 1
  let complementBitmap := allBits ^^^ (basisBitmap A ea).getD 0
  let ed := (bitmapBasis A complementBitmap).getD "?"
  let signVector : MV α :=
    match side with
    | .left => makeWedgeEntry A ed ea
    | .right => makeWedgeEntry A ea ed
  [(ed, objGetD signVector (getBasis signVector))]

/-- The loop body of `makeAntiTable(table)` for one ordered pair: wedge the
left duals through the supplied table; a zero wedge gives a zero entry,
otherwise the entry is keyed by the wedge result's blade with the product
of the four sign factors as coefficient. -/
def makeAntiEntry {α : Type} [CommRing α] [DecidableEq α] (A : GAAlgebra α)
    (table : String → String → MV α) (ea eb : String) : MV α :=
  let lea := makeDualEntry A .left ea
  let leb := makeDualEntry A .left eb
  let leaBasis := getBasis lea
  let lebBasis := getBasis leb
  let w := table leaBasis lebBasis
  if isZero w then w
  else
    let wBasis := getBasis w
    let rw := makeDualEntry A .right wBasis
    let rwBasis := getBasis rw
    [(wBasis,
      objGetD lea leaBasis * objGetD leb lebBasis *
        objGetD w wBasis * objGetD rw rwBasis)]

/-- The anti-wedge table as constructed: `makeAntiTable(this.wedgeTable)`. -/
def antiWedgeEntry {α : Type} [CommRing α] [DecidableEq α]
    (A : GAAlgebra α) (ea eb : String) : MV α :=
  makeAntiEntry A (makeWedgeEntry A) ea eb

/-- Source `Algebra.cayleyMul`: bilinear extension of a Cayley table, accumulating
`table[basisA][basisB] * a[basisA] * b[basisB]` into the answer, deleting a
key the moment its accumulated coefficient is falsy, then re-sorting.
(`a[basisA]` is the entry's own value since JS object keys are unique.) -/
def cayleyMul {α : Type} [CommRing α] [DecidableEq α] (A : GAAlgebra α)
    (table : String → String → MV α) (a b : MV α) : MV α :=
  sortVector A <|
    a.foldl (fun answer pa =>
      b.foldl (fun answer pb =>
        (table pa.1 pb.1).foldl (fun answer pr =>
          accumulate answer pr.1 (pr.2 * pa.2 * pb.2)) answer) answer) []

/-- Source `Algebra.wedge`. -/
def gaWedge {α : Type} [CommRing α] [DecidableEq α] (A : GAAlgebra α) (a b : MV α) : MV α :=
  cayleyMul A (makeWedgeEntry A) a b

/-- Source `Algebra.antiWedge`. -/
def gaAntiWedge {α : Type} [CommRing α] [DecidableEq α] (A : GAAlgebra α) (a b : MV α) : MV α :=
  cayleyMul A (antiWedgeEntry A) a b

/-- Source `Algebra.gp` (geometric product). -/
def gaGp {α : Type} [CommRing α] [DecidableEq α] (A : GAAlgebra α) (a b : MV α) : MV α :=
  cayleyMul A (makeGeometricProductEntry A) a b

/-- Source `Algebra.binary`: key-wise combination over the union of the key sets
(`a`'s keys first, then `b`'s new keys, as a JS `Set` union iterates),
missing keys defaulting to 0, then re-sorting. -/
def gaBinary {α : Type} [CommRing α] [DecidableEq α] (A : GAAlgebra α)
    (f : α → α → α) (a b : MV α) : MV α :=
  let keys := a.map Prod.fst ++
    (b.map Prod.fst).filter (fun k => !((a.map Prod.fst).contains k))
  sortVector A (keys.map (fun k => (k, f (objGetD a k) (objGetD b k))))

/-- Source `Algebra.add`. -/
def gaAdd {α : Type} [CommRing α] [DecidableEq α] (A : GAAlgebra α) (a b : MV α) : MV α :=
  gaBinary A (fun x y => x + y) a b

/-- Source `Algebra.sub`. -/
def gaSub {α : Type} [CommRing α] [DecidableEq α] (A : GAAlgebra α) (a b : MV α) : MV α :=
  gaBinary A (fun x y => x - y) a b

/-- Source `Algebra.scale`: multiply every coefficient by `s`.  Note: no zero
pruning and no re-sorting — the result keeps exactly the input's keys. -/
def gaScale {α : Type} [CommRing α] (s : α) (m : MV α) : MV α :=
  m.map (fun p => (p.1, s * p.2))

/-- Source `Algebra.gradeSelect`: keep only the blades whose grade is `grade`,
then re-sort.  There is no range check and no error path. -/
def gradeSelect {α : Type} [CommRing α] [DecidableEq α] (A : GAAlgebra α)
    (v : MV α) (grade : Int) : MV α :=
  sortVector A (v.filter (fun p => gradeOfBasis A p.1 == grade))

/-- Source `Algebra.reverse`: multiply each grade-`k` coefficient by
`(-1)^(k(k-1)/2)`, then re-sort. -/
def gaReverse {α : Type} [CommRing α] [DecidableEq α] (A : GAAlgebra α) (v : MV α) : MV α :=
  sortVector A (v.map (fun p =>
    let k := gradeOfBasis A p.1
    (p.1, (if k * (k - 1) / 2 % 2 = 1 then (-1 : α) else 1) * p.2)))

/-- The shared loop of `Algebra.dual` / `Algebra.unDual`: push each entry
through its dual-table row, accumulating, then re-sort. -/
def dualApply {α : Type} [CommRing α] [DecidableEq α] (A : GAAlgebra α)
    (entry : String → MV α) (v : MV α) : MV α :=
  sortVector A <|
    v.foldl (fun result p =>
      (entry p.1).foldl (fun result q =>
        accumulate result q.1 (p.2 * q.2)) result) []

/-- Source `Algebra.dual`: bilinear extension of the right dual table. -/
def gaDual {α : Type} [CommRing α] [DecidableEq α] (A : GAAlgebra α) (v : MV α) : MV α :=
  dualApply A (makeDualEntry A .right) v

/-- Source `Algebra.unDual`: bilinear extension of the left dual table. -/
def gaUnDual {α : Type} [CommRing α] [DecidableEq α] (A : GAAlgebra α) (v : MV α) : MV α :=
  dualApply A (makeDualEntry A .left) v

/-- Source `Algebra.leftContract`: for blade pairs of grades `r ≤ s`, the
grade-`(s-r)` part of the geometric product, accumulated and re-sorted. -/
def leftContract {α : Type} [CommRing α] [DecidableEq α] (A : GAAlgebra α)
    (a b : MV α) : MV α :=
  sortVector A <|
    a.foldl (fun result pa =>
      b.foldl (fun result pb =>
        let r := gradeOfBasis A pa.1
        let s := gradeOfBasis A pb.1
        if r ≤ s then
          (makeGeometricProductEntry A pa.1 pb.1).foldl (fun result pr =>
            if gradeOfBasis A pr.1 = s - r then
              accumulate result pr.1 (pr.2 * pa.2 * pb.2)
            else result) result
        else result) result) []

/-- Source `Algebra.scalarProduct`: the scalar (key `e`) part of the geometric
product, 0 if absent. -/
def scalarProduct {α : Type} [CommRing α] [DecidableEq α] (A : GAAlgebra α)
    (a b : MV α) : α :=
  objGetD (gaGp A a b) "e"

/-- Source `Algebra.normSquared`: `scalarProduct(v, reverse(v))`. -/
def normSquared {α : Type} [CommRing α] [DecidableEq α] (A : GAAlgebra α) (v : MV α) : α :=
  scalarProduct A v (gaReverse A v)

/-- Source `Algebra.sandwich`: `gp(gp(r, x), reverse(r))`. -/
def sandwich {α : Type} [CommRing α] [DecidableEq α] (A : GAAlgebra α)
    (r x : MV α) : MV α :=
  gaGp A (gaGp A r x) (gaReverse A r)

/-- Source `Algebra.normalize`, modelled over the reals because of `Math.sqrt`:
`mag = sqrt(|normSquared v|)`; if `mag === 0` the input `v` is returned
unchanged (there is no thrown error), otherwise `scale(1/mag, v)`. -/
noncomputable def gaNormalize (A : GAAlgebra ℝ) (v : MV ℝ) : MV ℝ :=
  let ns := normSquared A v
  let mag := Real.sqrt |ns|
  if mag = 0 then v else gaScale (1 / mag) v

/-- A `MatrixMath` matrix: an array of rows. -/
abbrev GMatrix (α : Type) := List (List α)

/-- Source `MatrixMath.create(rows, columns, diagonal)` with an array diagonal:
zero matrix with `diagonal[row]` at each `(row, row)`. -/
def matCreate {α : Type} [CommRing α] (rows cols : ℕ) (diag : List α) : GMatrix α :=
  (List.range rows).map (fun r =>
    (List.range cols).map (fun c => if c = r then diag.getD r 0 else 0))

/-- Source `MatrixMath.mul`: standard row-by-column product when the inner
dimensions agree, the empty array otherwise. -/
def matMul {α : Type} [CommRing α] (a b : GMatrix α) : GMatrix α :=
  let aRows := a.length
  let aCols := (a.headD []).length
  let bRows := b.length
  let bCols := (b.headD []).length
  if aCols = bRows then
    (List.range aRows).map (fun r =>
      (List.range bCols).map (fun c =>
        (List.range aCols).foldl
          (fun acc k => acc + (a.getD r []).getD k 0 * (b.getD k []).getD c 0) 0))
  else []

/-- Source `MatrixMath.transpose` (as written in the source, it reads
`m[column][row]` over the row/column ranges of `m`; correct for the square
matrices it is applied to). -/
def matTranspose {α : Type} [CommRing α] (m : GMatrix α) : GMatrix α :=
  let rows := m.length
  let cols := (m.headD []).length
  (List.range rows).map (fun r =>
    (List.range cols).map (fun c => (m.getD c []).getD r 0))

/-- Constructor line `this.g[1] = MatrixMath.create(this.degree,
this.degree, this.squares)`: the grade-1 metric of a parentless algebra. -/
def rootG1 {α : Type} [CommRing α] (A : GAAlgebra α) : GMatrix α :=
  matCreate (gaDegree A) (gaDegree A) A.squares

/-- Constructor lines 96–99: for an algebra with a parent,
`g[1] = mul(transpose(m[1]), mul(parent.g[1], m[1]))`, the parent here
being a root algebra so that `parent.g[1] = rootG1 parent`. -/
def childG1 {α : Type} [CommRing α] (parent : GAAlgebra α) (m1 : GMatrix α) : GMatrix α :=
  matMul (matTranspose m1) (matMul (rootG1 parent) m1)

/-- The root algebra of signature (2,0,0) — spec scenario A. -/
def algR2 : GAAlgebra ℚ := makeCountAlgebra ℚ 2 0 0

/-- The root algebra of signature (2,1,0) — spec scenario B. -/
def algR21 : GAAlgebra ℚ := makeCountAlgebra ℚ 2 1 0

/-- The root algebra of signature (3,1,0) — parent of the conformal child. -/
def algR31 : GAAlgebra ℚ := makeCountAlgebra ℚ 3 1 0

/-- The 2D conformal child algebra of spec scenario C: explicit basis map
`{e1, e2, eo, ei}` with squares `1, 1, 0, 0`. -/
def algCGA2D : GAAlgebra ℚ :=
  { squares := [1, 1, 0, 0], subscripts := ["1", "2", "o", "i"] }

/-- The grade-1 transform `M[1]` of spec scenario C. -/
def confTransform : GMatrix ℚ :=
  [[1, 0, 0, 0], [0, 1, 0, 0], [0, 0, -1/2, 1], [0, 0, 1/2, 1]]

/-!  Integer-coefficient instances of the same algebras.  The table and
sign computations below only ever produce values in `{-1, 0, 1}` and
products of such values, on which JS float arithmetic is exact and agrees
with `ℤ`; the integer instantiation is used where a statement is settled
by kernel evaluation (`decide`), which `ℚ` arithmetic does not support. -/

/-- Signature (2,0,0) over `ℤ`. -/
def algR2i : GAAlgebra ℤ := makeCountAlgebra ℤ 2 0 0

/-- Signature (2,1,0) over `ℤ`. -/
def algR21i : GAAlgebra ℤ := makeCountAlgebra ℤ 2 1 0

/-- The 2D conformal child algebra over `ℤ`. -/
def algCGA2Di : GAAlgebra ℤ :=
  { squares := [1, 1, 0, 0], subscripts := ["1", "2", "o", "i"] }

/-- Signature (3,1,0) over `ℤ`. -/
def algR31i : GAAlgebra ℤ := makeCountAlgebra ℤ 3 1 0

/-!  Spec-side formulations.  The following definitions follow the wording
of the specification (for refinement claims), not the source, and are
compared against the source-derived entry functions in the theorems. -/

/-- Stable insertion of one element into an ascending run, by key. -/
def specInsert (ord : String → ℕ) (x : String) : List String → List String
  | [] => [x]
  | y :: ys => if ord x ≤ ord y then x :: y :: ys else y :: specInsert ord x ys

/-- Spec-modelled sorting of a subscript sequence: a stable sort by the
declared vector order (spec §4.2 "repeatedly adjacent-swap to sort"). -/
def specSorted (ord : String → ℕ) : List String → List String
  | [] => []
  | x :: xs => specInsert ord x (specSorted ord xs)

/-- Spec-modelled swap count: the number of inversions of the combined
sequence, which is what counting adjacent swaps during sorting yields
(spec §4.2 "counting swaps [...] the permutation parity"). -/
def specInversions (ord : String → ℕ) : List String → ℕ
  | [] => 0
  | x :: xs => (xs.filter (fun y => ord y < ord x)).length + specInversions ord xs

/-- Spec-modelled collapse of the sorted sequence for the geometric
product (claim C6 / spec §4.2): each equal adjacent pair is removed
according to that vector's square — square 0 zeroes the whole entry
(`none`), square +1 removes silently, square −1 removes with one extra
sign flip.  Returns the remaining subscripts and the flip count. -/
def specCollapse {α : Type} [CommRing α] [DecidableEq α] (sq : String → Option α) :
    List String → Option (List String × ℕ)
  | [] => some ([], 0)
  | [x] => some ([x], 0)
  | x :: y :: rest =>
      if x = y then
        match sq x with
        | some s =>
            if s = 0 then none
            else if s = 1 then specCollapse sq rest
            else (specCollapse sq rest).map (fun p => (p.1, p.2 + 1))
        | none => (specCollapse sq rest).map (fun p => (p.1, p.2 + 1))
      else (specCollapse sq (y :: rest)).map (fun p => (x :: p.1, p.2))

/-- Spec-modelled geometric-product table entry (claim C6): concatenate the
two index sequences, count the inversions (adjacent-swap count), sort,
collapse equal adjacent pairs by squares, and sign the remaining blade by
total parity. -/
def specGpEntry {α : Type} [CommRing α] [DecidableEq α]
    (A : GAAlgebra α) (ea eb : String) : MV α :=
  let all := parseSubs A ea ++ parseSubs A eb
  let swaps := specInversions (ordD A) all
  match specCollapse (squareOfSub A) (specSorted (ordD A) all) with
  | none => []
  | some (rem, flips) =>
      [("e" ++ String.join rem, if (swaps + flips) % 2 = 1 then (-1 : α) else 1)]

/-- The coefficient of a one-entry table value (its first key's value). -/
def entryCoeff {α : Type} [CommRing α] (v : MV α) : α :=
  objGetD v (getBasis v)

/-- Spec-modelled anti-wedge table entry, amended per claim C1: computed
from bitmask complements.  With `ca`, `cb` the pseudoscalar-complement
bitmasks of the two blades, the entry is zero when the complements share a
basis vector (`ca AND cb ≠ 0`, i.e. the wedge of the left duals is the
zero blade); otherwise it is keyed by the blade of bitmask `ca OR cb` —
the wedge result itself, which is where the amended claim differs from the
original (the original expected the right dual of the wedge result) — with
coefficient the product of the four sign factors: left-dual sign of A,
left-dual sign of B, the wedge sign, and the right-dual sign of the wedge
result. -/
def specAntiEntry {α : Type} [CommRing α] [DecidableEq α]
    (A : GAAlgebra α) (ea eb : String) : MV α :=
  let full := (1 <<< gaDegree A) - 1
  let ca := full ^^^ (basisBitmap A ea).getD 0
  let cb := full ^^^ (basisBitmap A eb).getD 0
  if ca &&& cb ≠ 0 then []
  else
    let na := (bitmapBasis A ca).getD "?"
    let nb := (bitmapBasis A cb).getD "?"
    let nw := (bitmapBasis A (ca ||| cb)).getD "?"
    [(nw,
      entryCoeff (makeDualEntry A .left ea) * entryCoeff (makeDualEntry A .left eb) *
        entryCoeff (makeWedgeEntry A na nb) * entryCoeff (makeDualEntry A .right nw))]

/-!  General lemmas about the embedded operations. -/

section SortLemmas

variable {α : Type} [Zero α] [DecidableEq α]

/-- The coefficient at a key, after zero-cleaning: what `sortVector`
exposes about the input at that key. -/
def cleanGet (v : MV α) (k : String) : Option α :=
  match objGet v k with
  | some c => if c = 0 then none else some c
  | none => none

theorem sortFn_eq_cleanGet (v : MV α) (k : String) :
    sortFn v k = (cleanGet v k).map (fun c => (k, c)) := by
  unfold sortFn cleanGet
  cases objGet v k with
  | none => rfl
  | some c =>
      by_cases hc : c = 0 <;> simp [hc]

theorem cleanGet_ne_zero {v : MV α} {k : String} {c : α}
    (h : cleanGet v k = some c) : c ≠ 0 := by
  unfold cleanGet at h
  rcases hg : objGet v k with _ | d <;> rw [hg] at h
  · cases h
  · by_cases hd : d = 0
    · simp [hd] at h
    · simp only [if_neg hd, Option.some.injEq] at h
      subst h
      exact hd

theorem objGet_filterMap_sortFn (v : MV α) (k : String) :
    ∀ l : List String,
      objGet (l.filterMap (sortFn v)) k = if k ∈ l then cleanGet v k else none
  | [] => by simp [objGet]
  | b :: t => by
      rcases hc : cleanGet v b with _ | c
      · simp only [List.filterMap_cons, sortFn_eq_cleanGet, hc, Option.map_none']
        rw [objGet_filterMap_sortFn v k t]
        by_cases hkb : k = b
        · subst hkb
          simp [hc]
        · simp [List.mem_cons, hkb]
      · simp only [List.filterMap_cons, sortFn_eq_cleanGet, hc, Option.map_some']
        by_cases hkb : k = b
        · subst hkb
          simp [objGet, hc]
        · have hstep : objGet ((b, c) :: t.filterMap (sortFn v)) k =
              objGet (t.filterMap (sortFn v)) k := by
            simp [objGet, List.find?_cons, hkb, Ne.symm hkb]
          rw [hstep, objGet_filterMap_sortFn v k t]
          simp [List.mem_cons, hkb]

theorem objGet_sortVector (A : GAAlgebra α) (v : MV α) (k : String) :
    objGet (sortVector A v) k = if k ∈ gaBasis A then cleanGet v k else none :=
  objGet_filterMap_sortFn v k (gaBasis A)

theorem cleanGet_idem (v : MV α) (k : String) :
    (match cleanGet v k with
      | some c => if c = 0 then none else some c
      | none => none) = cleanGet v k := by
  unfold cleanGet
  cases objGet v k with
  | none => rfl
  | some c => by_cases hc : c = 0 <;> simp [hc]

theorem sortVector_idem (A : GAAlgebra α) (v : MV α) :
    sortVector A (sortVector A v) = sortVector A v := by
  unfold sortVector
  apply List.filterMap_congr
  intro b hb
  rw [sortFn_eq_cleanGet, sortFn_eq_cleanGet]
  congr 1
  show cleanGet (sortVector A v) b = cleanGet v b
  unfold cleanGet
  rw [objGet_sortVector, if_pos hb]
  exact cleanGet_idem v b

theorem sortVector_coeff_ne_zero (A : GAAlgebra α) (v : MV α) :
    ∀ p ∈ sortVector A v, p.2 ≠ 0 := by
  intro p hp
  unfold sortVector at hp
  obtain ⟨a, -, ha⟩ := List.mem_filterMap.mp hp
  rw [sortFn_eq_cleanGet] at ha
  rcases hc : cleanGet v a with _ | c <;> rw [hc] at ha
  · cases ha
  · simp only [Option.map_some', Option.some.injEq] at ha
    subst ha
    exact cleanGet_ne_zero hc

theorem sortVector_keys_sublist (A : GAAlgebra α) (v : MV α) :
    ((sortVector A v).map Prod.fst).Sublist (gaBasis A) := by
  unfold sortVector
  induction gaBasis A with
  | nil => simp
  | cons b t ih =>
      rcases hc : cleanGet v b with _ | c
      · simp only [List.filterMap_cons, sortFn_eq_cleanGet, hc, Option.map_none']
        exact ih.cons b
      · simp only [List.filterMap_cons, sortFn_eq_cleanGet, hc, Option.map_some']
        simpa using ih.cons₂ b

/-- The multivector invariant of the spec (§3): no zero coefficients,
keys in canonical blade order — expressed as: the value is a fixed point
of `sortVector`, has no zero coefficient, and lists its keys as a
subsequence of the canonical basis order. -/
@[reducible]
def Canonical (A : GAAlgebra α) (w : MV α) : Prop :=
  sortVector A w = w ∧ (∀ p ∈ w, p.2 ≠ 0) ∧
    (w.map Prod.fst).Sublist (gaBasis A)

theorem canonical_sortVector (A : GAAlgebra α) (v : MV α) :
    Canonical A (sortVector A v) :=
  ⟨sortVector_idem A v, sortVector_coeff_ne_zero A v, sortVector_keys_sublist A v⟩

theorem cleanGet_of_none {v : MV α} {k : String} (h : objGet v k = none) :
    cleanGet v k = none := by
  unfold cleanGet
  rw [h]

theorem cleanGet_of_some {v : MV α} {k : String} {c : α}
    (h : objGet v k = some c) (hc : c ≠ 0) : cleanGet v k = some c := by
  unfold cleanGet
  rw [h]
  simp [hc]

theorem sortVector_nil (A : GAAlgebra α) : sortVector A ([] : MV α) = [] := by
  unfold sortVector
  induction gaBasis A with
  | nil => rfl
  | cons b t ih => rw [List.filterMap_cons]; simp [sortFn, objGet, ih]

end SortLemmas

section RoundTrip

variable {α : Type} [Field α] [DecidableEq α]

theorem accumulate_nil (k : String) (n : α) :
    accumulate ([] : MV α) k n = if n = 0 then [] else [(k, n)] := by
  unfold accumulate objGetD objGet objDelete objSet
  simp

theorem objGet_single (k key : String) (x : α) :
    objGet [(k, x)] key = if k = key then some x else none := by
  unfold objGet
  by_cases h : k = key <;> simp [List.find?_cons, h]

theorem sortFn_single_self (k : String) (x : α) (hx : x ≠ 0) :
    sortFn [(k, x)] k = some (k, x) := by
  unfold sortFn
  simp [objGet_single, hx]

theorem sortFn_single_other (k b : String) (x : α) (hkb : k ≠ b) :
    sortFn [(k, x)] b = none := by
  unfold sortFn
  simp [objGet_single, hkb]

end RoundTrip

section DualLinear

variable {α : Type} [Field α] [DecidableEq α]

theorem objGet_append (xs ys : MV α) (k : String) :
    objGet (xs ++ ys) k = (objGet xs k).or (objGet ys k) := by
  unfold objGet
  rw [List.find?_append]
  cases xs.find? (fun p => p.1 == k) <;> simp

theorem objGet_eq_none_iff (v : MV α) (k : String) :
    objGet v k = none ↔ ∀ p ∈ v, p.1 ≠ k := by
  unfold objGet
  rw [Option.map_eq_none', List.find?_eq_none]
  simp

/-- Accumulating into a fresh key appends the entry. -/
theorem accumulate_fresh (init : MV α) (k : String) (x : α)
    (hfresh : objGet init k = none) (hx : x ≠ 0) :
    accumulate init k x = init ++ [(k, x)] := by
  unfold accumulate objGetD
  rw [hfresh]
  simp only [Option.getD_none, zero_add, if_neg hx]
  unfold objSet
  have hany : init.any (fun p => p.1 == k) = false := by
    rw [List.any_eq_false]
    intro p hp
    simpa using (objGet_eq_none_iff init k).mp hfresh p hp
  rw [hany]
  simp

/-- The accumulation loop of `dual`/`unDual` over a table whose rows are
single entries, on fresh pairwise-distinct target keys, is a plain map. -/
theorem dualFoldAux (entry : String → MV α) (dKey : String → String)
    (dSgn : String → α) :
    ∀ (v init : MV α),
      (∀ p ∈ v, entry p.1 = [(dKey p.1, dSgn p.1)]) →
      (∀ p ∈ v, p.2 * dSgn p.1 ≠ 0) →
      (∀ p ∈ v, objGet init (dKey p.1) = none) →
      (v.map (fun p => dKey p.1)).Nodup →
      v.foldl (fun result p =>
          (entry p.1).foldl (fun result q => accumulate result q.1 (p.2 * q.2)) result)
          init
        = init ++ v.map (fun p => (dKey p.1, p.2 * dSgn p.1))
  | [], init, _, _, _, _ => by simp
  | p :: rest, init, hE, hnz, hfresh, hnodup => by
      rw [List.foldl_cons, hE p (List.mem_cons_self p rest), List.foldl_cons,
        List.foldl_nil,
        accumulate_fresh init (dKey p.1) (p.2 * dSgn p.1)
          (hfresh p (List.mem_cons_self p rest)) (hnz p (List.mem_cons_self p rest))]
      rw [List.map_cons] at hnodup
      have hnodup' := hnodup.of_cons
      have hne : ∀ q ∈ rest, dKey q.1 ≠ dKey p.1 := by
        intro q hq he
        exact (List.nodup_cons.mp hnodup).1 (he ▸ List.mem_map.mpr ⟨q, hq, rfl⟩)
      rw [dualFoldAux entry dKey dSgn rest (init ++ [(dKey p.1, p.2 * dSgn p.1)])
        (fun q hq => hE q (List.mem_cons_of_mem p hq))
        (fun q hq => hnz q (List.mem_cons_of_mem p hq))
        (fun q hq => by
          rw [objGet_append]
          rw [hfresh q (List.mem_cons_of_mem p hq)]
          simp [objGet_single, Ne.symm (hne q hq)])
        hnodup']
      simp

/-- Source `dual`/`unDual` on a multivector whose rows in the dual table
are single entries with nonzero products and distinct target keys:
a map followed by the canonical re-sort. -/
theorem dualApply_eq_map (A : GAAlgebra α) (entry : String → MV α)
    (dKey : String → String) (dSgn : String → α) (v : MV α)
    (hE : ∀ p ∈ v, entry p.1 = [(dKey p.1, dSgn p.1)])
    (hnz : ∀ p ∈ v, p.2 * dSgn p.1 ≠ 0)
    (hnodup : (v.map (fun p => dKey p.1)).Nodup) :
    dualApply A entry v =
      sortVector A (v.map (fun p => (dKey p.1, p.2 * dSgn p.1))) := by
  unfold dualApply
  rw [dualFoldAux entry dKey dSgn v [] hE hnz (fun p _ => rfl) hnodup]
  simp

/-- Reading a transformed map at a key whose unique preimage among the
keys of `w` is `κ`. -/
theorem objGet_map_transform (h : String → String) (s : String → α)
    (k κ : String) :
    ∀ w : MV α, (∀ q ∈ w, (h q.1 = k ↔ q.1 = κ)) →
      objGet (w.map (fun q => (h q.1, q.2 * s q.1))) k =
        (objGet w κ).map (fun c => c * s κ)
  | [], _ => rfl
  | q :: rest, hiff => by
      by_cases hq : q.1 = κ
      · have hk : h q.1 = k := (hiff q (List.mem_cons_self q rest)).mpr hq
        have h1 : objGet ((q :: rest).map (fun r => (h r.1, r.2 * s r.1))) k =
            some (q.2 * s q.1) := by
          unfold objGet
          rw [List.map_cons, List.find?_cons_of_pos _ (by simp [hk])]
          rfl
        have h2 : objGet (q :: rest) κ = some q.2 := by
          unfold objGet
          rw [List.find?_cons_of_pos _ (by simp [hq])]
          rfl
        rw [h1, h2, hq]
        rfl
      · have hk : h q.1 ≠ k := fun he => hq ((hiff q (List.mem_cons_self q rest)).mp he)
        have IH := objGet_map_transform h s k κ rest
          (fun r hr => hiff r (List.mem_cons_of_mem q hr))
        have h1 : objGet ((q :: rest).map (fun r => (h r.1, r.2 * s r.1))) k =
            objGet (rest.map (fun r => (h r.1, r.2 * s r.1))) k := by
          unfold objGet
          rw [List.map_cons, List.find?_cons_of_neg _ (by simp [hk])]
        have h2 : objGet (q :: rest) κ = objGet rest κ := by
          unfold objGet
          rw [List.find?_cons_of_neg _ (by simp [hq])]
        rw [h1, h2]
        exact IH

/-- Two canonical multivectors with the same coefficients are equal. -/
theorem canonical_ext (A : GAAlgebra α) (v w : MV α)
    (hv : sortVector A v = v) (hw : sortVector A w = w)
    (h : ∀ k ∈ gaBasis A, objGet v k = objGet w k) : v = w := by
  rw [← hv, ← hw]
  unfold sortVector
  apply List.filterMap_congr
  intro b hb
  unfold sortFn
  rw [h b hb]

theorem objGet_canonical_ne_zero (A : GAAlgebra α) (v : MV α)
    (hnz : ∀ p ∈ v, p.2 ≠ 0) (k : String) (c : α) (h : objGet v k = some c) :
    c ≠ 0 := by
  unfold objGet at h
  rcases hf : v.find? (fun p => p.1 == k) with _ | q <;> rw [hf] at h
  · cases h
  · simp only [Option.map_some', Option.some.injEq] at h
    subst h
    exact hnz q (List.mem_of_find?_eq_some hf)

/-- The dual round trip `dual(unDual(·))` is the identity on every
canonical multivector of an algebra whose dual tables are total single
entries forming mutually inverse key maps with matching signs.  The
hypotheses are decidable facts of a concrete algebra. -/
theorem dual_unDual_canonical (A : GAAlgebra ℚ)
    (LKey RKey : String → String) (LSgn RSgn : String → ℚ)
    (hL : ∀ b ∈ gaBasis A, makeDualEntry A .left b = [(LKey b, LSgn b)])
    (hR : ∀ b ∈ gaBasis A, makeDualEntry A .right b = [(RKey b, RSgn b)])
    (hNodup : (gaBasis A).Nodup)
    (hLmem : ∀ b ∈ gaBasis A, LKey b ∈ gaBasis A)
    (hRL : ∀ b ∈ gaBasis A, RKey (LKey b) = b)
    (hLinj : ∀ b ∈ gaBasis A, ∀ c ∈ gaBasis A, LKey b = LKey c → b = c)
    (hRinj : ∀ b ∈ gaBasis A, ∀ c ∈ gaBasis A, RKey b = RKey c → b = c)
    (hSgn : ∀ b ∈ gaBasis A,
      (LSgn b = 1 ∧ RSgn (LKey b) = 1) ∨ (LSgn b = -1 ∧ RSgn (LKey b) = -1))
    (hRSgnPat : ∀ b ∈ gaBasis A, RSgn b = 1 ∨ RSgn b = -1)
    (v : MV ℚ) (hv : Canonical A v) :
    gaDual A (gaUnDual A v) = v := by
  obtain ⟨hv1, hv2, hv3⟩ := hv
  have hkeys : ∀ p ∈ v, p.1 ∈ gaBasis A := fun p hp =>
    hv3.subset (List.mem_map.mpr ⟨p, hp, rfl⟩)
  have hknodup : (v.map Prod.fst).Nodup := hv3.nodup hNodup
  have hLs : ∀ b ∈ gaBasis A, LSgn b ≠ 0 := by
    intro b hb
    rcases hSgn b hb with ⟨h1, -⟩ | ⟨h1, -⟩ <;> rw [h1] <;> norm_num
  have hw : gaUnDual A v =
      sortVector A (v.map (fun p => (LKey p.1, p.2 * LSgn p.1))) := by
    unfold gaUnDual
    apply dualApply_eq_map
    · exact fun p hp => hL p.1 (hkeys p hp)
    · exact fun p hp => mul_ne_zero (hv2 p hp) (hLs p.1 (hkeys p hp))
    · have hmm : v.map (fun p => LKey p.1) = (v.map Prod.fst).map LKey := by
        rw [List.map_map]
        rfl
      rw [hmm]
      refine hknodup.map_on ?_
      intro x hx y hy hxy
      exact hLinj x (hv3.subset hx) y (hv3.subset hy) hxy
  set w := sortVector A (v.map (fun p => (LKey p.1, p.2 * LSgn p.1))) with hwdef
  obtain ⟨hw1, hw2, hw3⟩ := canonical_sortVector A
    (v.map (fun p => (LKey p.1, p.2 * LSgn p.1)))
  have hwkeys : ∀ q ∈ w, q.1 ∈ gaBasis A := fun q hq =>
    hw3.subset (List.mem_map.mpr ⟨q, hq, rfl⟩)
  have hd : gaDual A w =
      sortVector A (w.map (fun q => (RKey q.1, q.2 * RSgn q.1))) := by
    unfold gaDual
    apply dualApply_eq_map
    · exact fun q hq => hR q.1 (hwkeys q hq)
    · intro q hq
      refine mul_ne_zero (hw2 q hq) ?_
      rcases hRSgnPat q.1 (hwkeys q hq) with h1 | h1 <;> rw [h1] <;> norm_num
    · have hmm : w.map (fun q => RKey q.1) = (w.map Prod.fst).map RKey := by
        rw [List.map_map]
        rfl
      rw [hmm]
      refine (hw3.nodup hNodup).map_on ?_
      intro x hx y hy hxy
      exact hRinj x (hw3.subset hx) y (hw3.subset hy) hxy
  rw [hw, hd]
  apply canonical_ext A _ v (sortVector_idem A _) hv1
  intro k hk
  rw [objGet_sortVector, if_pos hk]
  have hiffR : ∀ q ∈ w, (RKey q.1 = k ↔ q.1 = LKey k) := by
    intro q hq
    constructor
    · intro he
      exact hRinj q.1 (hwkeys q hq) (LKey k) (hLmem k hk) (by rw [he, hRL k hk])
    · intro he
      rw [he, hRL k hk]
  have h1 := objGet_map_transform RKey RSgn k (LKey k) w hiffR
  have h2 : objGet w (LKey k) =
      cleanGet (v.map (fun p => (LKey p.1, p.2 * LSgn p.1))) (LKey k) := by
    rw [hwdef, objGet_sortVector, if_pos (hLmem k hk)]
  have hiffL : ∀ p ∈ v, (LKey p.1 = LKey k ↔ p.1 = k) := fun p hp =>
    ⟨fun he => hLinj p.1 (hkeys p hp) k hk he, fun he => by rw [he]⟩
  have h3 := objGet_map_transform LKey LSgn (LKey k) k v hiffL
  rcases hg : objGet v k with _ | c
  · rw [hg] at h3
    simp only [Option.map_none'] at h3
    rw [cleanGet_of_none h3] at h2
    rw [h2] at h1
    simp only [Option.map_none'] at h1
    rw [cleanGet_of_none h1]
  · have hc : c ≠ 0 := objGet_canonical_ne_zero A v hv2 k c hg
    rw [hg] at h3
    simp only [Option.map_some'] at h3
    have hcl : c * LSgn k ≠ 0 := mul_ne_zero hc (hLs k hk)
    rw [cleanGet_of_some h3 hcl] at h2
    rw [h2] at h1
    simp only [Option.map_some'] at h1
    have hback : c * LSgn k * RSgn (LKey k) = c := by
      rcases hSgn k hk with ⟨ha, hb⟩ | ⟨ha, hb⟩ <;> rw [ha, hb] <;> ring
    rw [hback] at h1
    rw [cleanGet_of_some h1 hc]

end DualLinear

section GradeBound

theorem insertCmp_perm {β : Type} (cmp : β → β → Int) (x : β) :
    ∀ l : List β, (insertCmp cmp x l).Perm (x :: l)
  | [] => List.Perm.refl _
  | y :: ys => by
      unfold insertCmp
      by_cases h : cmp x y ≤ 0
      · rw [if_pos h]
      · rw [if_neg h]
        exact ((insertCmp_perm cmp x ys).cons y).trans (List.Perm.swap x y ys)

theorem sortCmp_perm {β : Type} (cmp : β → β → Int) :
    ∀ l : List β, (sortCmp cmp l).Perm l
  | [] => List.Perm.refl _
  | x :: xs =>
      (insertCmp_perm cmp x (sortCmp cmp xs)).trans ((sortCmp_perm cmp xs).cons x)

theorem popcountGo_le : ∀ fuel i d : ℕ, i ≤ fuel → i < 2 ^ d → popcountGo fuel i ≤ d
  | 0, _, d, _, _ => by rw [popcountGo]; exact Nat.zero_le d
  | fuel + 1, i, d, hif, hd => by
      rw [popcountGo]
      by_cases hi : i = 0
      · rw [if_pos hi]; exact Nat.zero_le d
      · rw [if_neg hi]
        rcases d with _ | d
        · rw [pow_zero] at hd; omega
        · have h1 : i / 2 ≤ fuel := by omega
          have h2 : i / 2 < 2 ^ d := by rw [pow_succ] at hd; omega
          have hrec := popcountGo_le fuel (i / 2) d h1 h2
          omega

theorem popcount_le (d i : ℕ) (h : i < 2 ^ d) : popcount i ≤ d :=
  popcountGo_le i i d (Nat.le_refl i) h

theorem testBit_orFold (j : ℕ) :
    ∀ (l : List ℕ) (acc : ℕ),
      (l.foldl (fun a b => a ||| (1 <<< b)) acc).testBit j =
        (acc.testBit j || l.contains j)
  | [], acc => by simp
  | b :: t, acc => by
      rw [List.foldl_cons, testBit_orFold j t]
      by_cases hbj : b = j
      · subst hbj
        simp [Nat.testBit_or, Nat.shiftLeft_eq, Nat.testBit_two_pow]
      · simp [Nat.testBit_or, Nat.shiftLeft_eq, Nat.testBit_two_pow, hbj,
          Bool.or_assoc, Ne.symm hbj]

theorem mem_bitsOf {i j : ℕ} : j ∈ bitsOf i ↔ i.testBit j = true := by
  unfold bitsOf
  simp only [List.mem_filter, List.mem_range, decide_eq_true_eq]
  constructor
  · exact fun h => h.2
  · intro h
    refine ⟨?_, h⟩
    have h2 : 2 ^ j ≤ i := Nat.testBit_implies_ge h
    have : j < 2 ^ j := Nat.lt_two_pow j
    omega

theorem bitsToBitmap_bitsOf (i : ℕ) : bitsToBitmap (bitsOf i) = i := by
  apply Nat.eq_of_testBit_eq
  intro j
  unfold bitsToBitmap
  rw [testBit_orFold j (bitsOf i) 0]
  by_cases h : i.testBit j
  · simp [h, mem_bitsOf.mpr h]
  · rw [Bool.not_eq_true] at h
    have hj : j ∉ bitsOf i := by simp [mem_bitsOf, h]
    simp [h, hj]

theorem mapLookup_some_mem {β γ : Type} [BEq β] [LawfulBEq β]
    {k : β} {y : γ} :
    ∀ {pairs : List (β × γ)} {acc : Option γ},
      pairs.foldl (fun a p => if p.1 == k then some p.2 else a) acc = some y →
      (k, y) ∈ pairs ∨ acc = some y
  | [], _, h => Or.inr h
  | p :: t, acc, h => by
      rw [List.foldl_cons] at h
      rcases mapLookup_some_mem h with hm | hacc
      · exact Or.inl (List.mem_cons_of_mem p hm)
      · by_cases hp : p.1 == k
        · rw [if_pos hp] at hacc
          left
          obtain ⟨p1, p2⟩ := p
          simp only [beq_iff_eq] at hp
          simp only at hacc
          injection hacc with h2
          subst hp
          subst h2
          exact List.mem_cons_self _ t
        · rw [if_neg hp] at hacc
          exact Or.inr hacc

theorem mapLookup_isSome_of_mem {β γ : Type} [BEq β] [LawfulBEq β]
    {k : β} :
    ∀ {pairs : List (β × γ)} {acc : Option γ},
      (∃ p ∈ pairs, p.1 = k) ∨ acc.isSome = true →
      (pairs.foldl (fun a p => if p.1 == k then some p.2 else a) acc).isSome = true
  | [], acc, h => by
      rcases h with ⟨p, hp, -⟩ | h
      · cases hp
      · exact h
  | p :: t, acc, h => by
      rw [List.foldl_cons]
      by_cases hp : p.1 == k
      · exact mapLookup_isSome_of_mem (Or.inr (by rw [if_pos hp]; rfl))
      · rcases h with ⟨q, hq, hqk⟩ | hacc
        · rcases List.mem_cons.mp hq with rfl | hqt
          · exact absurd hqk (by simpa using hp)
          · exact mapLookup_isSome_of_mem (Or.inl ⟨q, hqt, hqk⟩)
        · exact mapLookup_isSome_of_mem (Or.inr (by rw [if_neg hp]; exact hacc))

/-- Every bitmap stored in `basisBitmap` is below `2 ^ degree`, and every
basis name has a stored bitmap. -/
theorem basisBitmap_spec {α : Type} (A : GAAlgebra α) (key : String)
    (h : key ∈ gaBasis A) :
    ∃ bm, basisBitmap A key = some bm ∧ bm < 2 ^ gaDegree A := by
  have hzip : (gaBasis A).zip (gaBitmaps A) =
      (gaSortedOnesMap A).map (fun ones =>
        ("e" ++ String.join (ones.map (fun bit => A.subscripts.getD bit "")),
          bitsToBitmap ones)) := by
    unfold gaBasis gaBitmaps
    rw [List.zip_map']
  have hsome : (basisBitmap A key).isSome = true := by
    unfold basisBitmap mapLookup
    apply mapLookup_isSome_of_mem
    left
    unfold gaBasis at h
    obtain ⟨ones, ho, hname⟩ := List.mem_map.mp h
    refine ⟨(key, bitsToBitmap ones), ?_, rfl⟩
    rw [hzip]
    exact List.mem_map.mpr ⟨ones, ho, by rw [hname]⟩
  obtain ⟨bm, hbm⟩ := Option.isSome_iff_exists.mp hsome
  refine ⟨bm, hbm, ?_⟩
  have hmem : (key, bm) ∈ (gaBasis A).zip (gaBitmaps A) := by
    rcases mapLookup_some_mem (by exact hbm) with hm | habs
    · exact hm
    · cases habs
  rw [hzip] at hmem
  obtain ⟨ones, ho, hpair⟩ := List.mem_map.mp hmem
  have hbm2 : bm = bitsToBitmap ones := by
    have := congrArg Prod.snd hpair
    simpa using this.symm
  have : ones ∈ (List.range (2 ^ gaDegree A)).map bitsOf :=
    ((sortCmp_perm basisCmp _).mem_iff).mp ho
  obtain ⟨i, hi, rfl⟩ := List.mem_map.mp this
  rw [hbm2, bitsToBitmap_bitsOf]
  exact List.mem_range.mp hi

/-- The grade of a known basis blade lies in `[0, degree]`. -/
theorem gradeOfBasis_bounds {α : Type} (A : GAAlgebra α) (key : String)
    (h : key ∈ gaBasis A) :
    0 ≤ gradeOfBasis A key ∧ gradeOfBasis A key ≤ (gaDegree A : Int) := by
  obtain ⟨bm, hbm, hlt⟩ := basisBitmap_spec A key h
  have hg : gradeOfBasis A key = (popcount bm : Int) := by
    unfold gradeOfBasis
    rw [hbm]
  rw [hg]
  constructor
  · exact Int.ofNat_nonneg _
  · exact_mod_cast popcount_le (gaDegree A) bm hlt

end GradeBound

theorem normSquared_nil {α : Type} [CommRing α] [DecidableEq α] (A : GAAlgebra α) :
    normSquared A ([] : MV α) = 0 := by
  unfold normSquared scalarProduct gaGp cayleyMul gaReverse
  simp [sortVector_nil, objGetD, objGet]

/-- A root algebra with a single zero-square vector, over `ℝ`:
`new Algebra(0, 0, 1)`. -/
def algDeg1 : GAAlgebra ℝ := makeCountAlgebra ℝ 0 0 1

/-- The zero-dimensional root algebra over `ℝ`: `new Algebra(0, 0, 0)`. -/
def algScalarR : GAAlgebra ℝ := makeCountAlgebra ℝ 0 0 0

/-- The complement blade of `a`: the blade whose bitmap is the XOR of
`a`'s bitmap with the full pseudoscalar bitmap, found through the
bitmap-to-blade map. -/
abbrev complementBlade {α : Type} (A : GAAlgebra α) (a : String) : String :=
  (bitmapBasis A (((1 <<< gaDegree A) - 1) ^^^ (basisBitmap A a).getD 0)).getD "?"

/-- Claim C9's description of one dual-table entry: the entry maps `a` to
its bitmask complement blade, with the sign read off the wedge entry
`(complement, a)` (left) or `(a, complement)` (right), and that sign is
`+1` or `-1` — never zero. -/
abbrev dualEntryOK (A : GAAlgebra ℚ) (side : DualSide) (a : String) : Prop :=
  let comp := complementBlade A a
  let sgn : ℚ :=
    match side with
    | .left => entryCoeff (makeWedgeEntry A comp a)
    | .right => entryCoeff (makeWedgeEntry A a comp)
  makeDualEntry A side a = [(comp, sgn)] ∧ (sgn = 1 ∨ sgn = -1)

/-!  The claims. -/

/-- Claim C10: when an `Algebra` is constructed from numeric counts
`(positiveCount, negativeCount, zeroCount)`, the per-vector squares list
all zero-square vectors first, then the positive, then the negative ones;
in particular whenever `zeroCount > 0` the first basis vector `e1` squares
to 0 — vector numbering does not follow the `(positive, negative, zero)`
argument order. -/
theorem count_signature_layout (p q r : ℕ) :
    (makeCountAlgebra ℚ p q r).squares.length = r + p + q ∧
    (∀ i, i < r → (makeCountAlgebra ℚ p q r).squares[i]? = some 0) ∧
    (∀ i, r ≤ i → i < r + p → (makeCountAlgebra ℚ p q r).squares[i]? = some 1) ∧
    (∀ i, r + p ≤ i → i < r + p + q →
      (makeCountAlgebra ℚ p q r).squares[i]? = some (-1)) ∧
    (0 < r → (makeCountAlgebra ℚ p q r).squares[0]? = some 0) := by
  have hsq : (makeCountAlgebra ℚ p q r).squares =
      List.replicate r (0 : ℚ) ++ List.replicate p 1 ++ List.replicate q (-1) := rfl
  have hzero : ∀ i, i < r → (makeCountAlgebra ℚ p q r).squares[i]? = some 0 := by
    intro i hi
    rw [hsq, List.getElem?_append_left (by simp; omega),
      List.getElem?_append_left (by simpa using hi),
      List.getElem?_replicate_of_lt hi]
  refine ⟨?_, hzero, ?_, ?_, fun hr => hzero 0 hr⟩
  · rw [hsq]
    simp
    omega
  · intro i hri hip
    rw [hsq, List.getElem?_append_left (by simp; omega),
      List.getElem?_append_right (by simpa using hri)]
    simp only [List.length_replicate]
    rw [List.getElem?_replicate_of_lt (by omega)]
  · intro i hrp hq
    rw [hsq, List.getElem?_append_right (by simp; omega)]
    simp only [List.length_append, List.length_replicate]
    rw [List.getElem?_replicate_of_lt (by omega)]

/-- Claim C10 witness: in `new Algebra(2, 1, 1)` the layout is
`[0, 1, 1, -1]` — zero square first although `zero` is the last argument. -/
theorem count_signature_layout_witness :
    (makeCountAlgebra ℚ 2 1 1).squares[0]? = some 0 ∧
    (makeCountAlgebra ℚ 2 1 1).squares[1]? = some 1 ∧
    (makeCountAlgebra ℚ 2 1 1).squares[3]? = some (-1 : ℚ) ∧
    (makeCountAlgebra ℚ 2 1 1).squares[0]? = some 0 :=
  ⟨(count_signature_layout 2 1 1).2.1 0 (by decide),
   (count_signature_layout 2 1 1).2.2.1 1 (by decide) (by decide),
   (count_signature_layout 2 1 1).2.2.2.1 3 (by decide) (by decide),
   (count_signature_layout 2 1 1).2.2.2.2 (by decide)⟩

/-- Claim C3: the child algebra of spec scenario C — basis
`{e1, e2, eo, ei}` with squares `1, 1, 0, 0`, parent the root algebra of
signature (3,1,0), grade-1 transform `confTransform` — has grade-1 metric
`G[1] = M[1]ᵗ · G_parent[1] · M[1]` with `g(eo,eo) = 0`, `g(ei,ei) = 0`,
`g(eo,ei) = -1` and `g(e1,e1) = g(e2,e2) = 1` (grade-1 blade order is the
declared order `e1, e2, eo, ei`, so `eo` is row/column 2 and `ei` is 3). -/
theorem conformal_metric_g1 :
    childG1 algR31 confTransform =
      [[1, 0, 0, 0], [0, 1, 0, 0], [0, 0, 0, -1], [0, 0, -1, 0]] ∧
    ((childG1 algR31 confTransform).getD 2 []).getD 2 0 = 0 ∧
    ((childG1 algR31 confTransform).getD 3 []).getD 3 0 = 0 ∧
    ((childG1 algR31 confTransform).getD 2 []).getD 3 0 = -1 ∧
    ((childG1 algR31 confTransform).getD 0 []).getD 0 0 = 1 ∧
    ((childG1 algR31 confTransform).getD 1 []).getD 1 0 = 1 := by
  have hG : childG1 algR31 confTransform =
      [[1, 0, 0, 0], [0, 1, 0, 0], [0, 0, 0, -1], [0, 0, -1, 0]] := by
    norm_num [childG1, rootG1, matCreate, matMul, matTranspose, gaDegree, algR31,
      makeCountAlgebra, confTransform, List.range_succ, List.getD, List.headD,
      List.getElem_append, List.getElem_replicate, List.replicate]
  rw [hG]
  norm_num [List.getD]

/-- Claim C7 counterexample: `scale(0, {e1: 1})` returns `{e1: 0}` — an
entry with coefficient exactly zero — not the empty multivector the claim
requires. -/
theorem scale_zero_counterexample :
    gaScale (0 : ℚ) [("e1", (1 : ℚ))] = [("e1", 0)] ∧
    [("e1", (0 : ℚ))] ≠ ([] : MV ℚ) := by
  constructor
  · norm_num [gaScale]
  · simp

/-- Claim C7 as amended: the facade operations that end by re-sorting
(`add`, `sub`, `wedge`, `antiWedge`, geometric product, `reverse`,
`gradeSelect`, `leftContract`, `dual`, `unDual`, `sandwich`) return
zero-pruned multivectors whose keys follow the canonical blade order; but
`scale` keeps the input's keys and only multiplies the coefficients, so
`scale(0, v)` maps every key of `v` to coefficient zero instead of
returning the empty multivector. -/
theorem facade_canonical (A : GAAlgebra ℚ) (a b v : MV ℚ) (s : ℚ) (k : Int) :
    Canonical A (gaAdd A a b) ∧ Canonical A (gaSub A a b) ∧
    Canonical A (gaWedge A a b) ∧ Canonical A (gaAntiWedge A a b) ∧
    Canonical A (gaGp A a b) ∧ Canonical A (gaReverse A v) ∧
    Canonical A (gradeSelect A v k) ∧ Canonical A (leftContract A a b) ∧
    Canonical A (gaDual A v) ∧ Canonical A (gaUnDual A v) ∧
    Canonical A (sandwich A a b) ∧
    gaScale (0 : ℚ) v = v.map (fun p => (p.1, 0)) ∧
    gaScale s v = v.map (fun p => (p.1, s * p.2)) := by
  refine ⟨canonical_sortVector A _, canonical_sortVector A _, canonical_sortVector A _,
    canonical_sortVector A _, canonical_sortVector A _, canonical_sortVector A _,
    canonical_sortVector A _, canonical_sortVector A _, canonical_sortVector A _,
    canonical_sortVector A _, canonical_sortVector A _, ?_, rfl⟩
  simp [gaScale]

/-- Claim C8 counterexample: `gradeSelect({e1: 1}, 5)` in the (2,0,0)
algebra returns the empty multivector through the normal return path —
the source has no range check and no error path (`AlgebraicError` is
never raised). -/
theorem gradeSelect_counterexample :
    gradeSelect algR2 [("e1", (1 : ℚ))] 5 = [] := by decide

/-- Claim C8 as amended: for every multivector whose keys are basis blades
and every grade index outside `[0, n]` (`n` the dimension), `gradeSelect`
returns the empty (zero) multivector normally; no error is raised. -/
theorem gradeSelect_out_of_range (A : GAAlgebra ℚ) (v : MV ℚ) (k : Int)
    (hv : ∀ p ∈ v, p.1 ∈ gaBasis A) (hk : k < 0 ∨ (gaDegree A : Int) < k) :
    gradeSelect A v k = [] := by
  unfold gradeSelect
  have hfil : v.filter (fun p => gradeOfBasis A p.1 == k) = [] := by
    rw [List.filter_eq_nil_iff]
    intro p hp
    obtain ⟨h1, h2⟩ := gradeOfBasis_bounds A p.1 (hv p hp)
    simp only [beq_iff_eq]
    omega
  rw [hfil, sortVector_nil]

/-- Claim C8 witness: out-of-range grade 5 on `{e1: 1}` in the (2,0,0)
algebra. -/
theorem gradeSelect_out_of_range_witness :
    gradeSelect algR2 [("e1", (2 : ℚ))] 5 = [] :=
  gradeSelect_out_of_range algR2 [("e1", (2 : ℚ))] 5 (by decide) (by decide)

/-- Claim C2 counterexample: in `new Algebra(0, 0, 1)` the vector `e1`
squares to 0, so `normSquared({e1: 1}) = 0`; `normalize` then returns the
input multivector `{e1: 1}` unchanged through its normal return path
(`if (mag === 0) return v`) — it does not raise an `AlgebraicError`. -/
theorem normalize_zero_counterexample :
    normSquared algDeg1 [("e1", (1 : ℝ))] = 0 ∧
    gaNormalize algDeg1 [("e1", (1 : ℝ))] = [("e1", (1 : ℝ))] := by
  have hb : gaBasis algDeg1 = ["e", "e1"] := rfl
  have hgr : gradeOfBasis algDeg1 "e1" = 1 := rfl
  have hts : (toString 1 : String) = "1" := rfl
  have hsq : squareOfSub algDeg1 "1" = some 0 := rfl
  have hrev : gaReverse algDeg1 [("e1", (1 : ℝ))] = [("e1", (1 : ℝ))] := by
    unfold gaReverse
    norm_num [hgr]
    unfold sortVector
    rw [hb, List.filterMap_cons, List.filterMap_cons, List.filterMap_nil,
      sortFn_single_other "e1" "e" (1 : ℝ) (by decide),
      sortFn_single_self "e1" (1 : ℝ) one_ne_zero]
  have hgp : makeGeometricProductEntry algDeg1 "e1" "e1" = ([] : MV ℝ) := by
    unfold makeGeometricProductEntry
    norm_num [parseSubs, parseSubscripts, parseGo, collapseGo, bubbleLoopGP,
      bubblePass, strStartsWith, strDrop, charsPrefix,
      sortedSubsLongFirst, sortCmp, insertCmp, hts, hsq]
  have hns : normSquared algDeg1 [("e1", (1 : ℝ))] = 0 := by
    unfold normSquared scalarProduct gaGp cayleyMul
    rw [hrev]
    norm_num [hgp, sortVector_nil, objGetD, objGet]
  refine ⟨hns, ?_⟩
  unfold gaNormalize
  simp [hns]

/-- Claim C2 as amended: `normalize(v)` returns `v` unchanged when
`normSquared(v)` is exactly zero (no error is raised), and equals
`scale(1/sqrt(|normSquared(v)|), v)` when `normSquared(v)` is nonzero. -/
theorem normalize_spec (A : GAAlgebra ℝ) (v : MV ℝ) :
    (normSquared A v = 0 → gaNormalize A v = v) ∧
    (normSquared A v ≠ 0 →
      gaNormalize A v = gaScale (1 / Real.sqrt |normSquared A v|) v) := by
  constructor
  · intro h
    simp [gaNormalize, h]
  · intro h
    have hmag : Real.sqrt |normSquared A v| ≠ 0 :=
      (Real.sqrt_pos.mpr (abs_pos.mpr h)).ne'
    simp [gaNormalize, hmag]

/-- Claim C2 witness: both branches at concrete inputs — the zero
multivector has `normSquared = 0` and is returned unchanged; the scalar
`{e: 2}` in `new Algebra(0, 0, 0)` has `normSquared = 4 ≠ 0` and is
rescaled by `1/sqrt(4)`. -/
theorem normalize_spec_witness :
    (normSquared algScalarR ([] : MV ℝ) = 0 ∧
      gaNormalize algScalarR ([] : MV ℝ) = []) ∧
    (normSquared algScalarR [("e", (2 : ℝ))] ≠ 0 ∧
      gaNormalize algScalarR [("e", (2 : ℝ))] =
        gaScale (1 / Real.sqrt |normSquared algScalarR [("e", (2 : ℝ))]|)
          [("e", (2 : ℝ))]) := by
  have hns4 : normSquared algScalarR [("e", (2 : ℝ))] = 4 := by
    have hb : gaBasis algScalarR = ["e"] := rfl
    have hgr : gradeOfBasis algScalarR "e" = 0 := rfl
    have hgp : makeGeometricProductEntry algScalarR "e" "e" = [("e", (1 : ℝ))] := rfl
    have hrev : gaReverse algScalarR [("e", (2 : ℝ))] = [("e", (2 : ℝ))] := by
      unfold gaReverse
      norm_num [hgr]
      unfold sortVector
      rw [hb, List.filterMap_cons, List.filterMap_nil,
        sortFn_single_self "e" (2 : ℝ) two_ne_zero]
    unfold normSquared scalarProduct gaGp cayleyMul
    rw [hrev]
    simp only [List.foldl_cons, List.foldl_nil, hgp]
    rw [accumulate_nil]
    norm_num
    unfold sortVector
    rw [hb]
    norm_num [List.filterMap_cons, sortFn_single_self "e" (4 : ℝ) (by norm_num),
      objGetD, objGet, List.find?_cons]
  have hns0 : normSquared algScalarR ([] : MV ℝ) = 0 := normSquared_nil algScalarR
  refine ⟨⟨hns0, (normalize_spec algScalarR []).1 hns0⟩, ?_, ?_⟩
  · rw [hns4]; norm_num
  · exact (normalize_spec algScalarR [("e", (2 : ℝ))]).2 (by rw [hns4]; norm_num)

/-- Claim C4 counterexample: in the (2,0,0) algebra (`n = 2`) with
`v = {e1: 1}` of pure grade `k = 1`, Poincaré duality would require
`dual(undual(v)) = (-1)^(k(n-k)) v = -v`, but the code returns `v` itself:
the left-dual and right-dual signs are read off the same wedge entry
`(complement, blade)` and cancel. -/
theorem dual_unDual_sign_counterexample :
    gaDual algR2 (gaUnDual algR2 [("e1", (1 : ℚ))]) = [("e1", 1)] ∧
    gaScale ((-1 : ℚ) ^ (1 * (2 - 1))) [("e1", (1 : ℚ))] = [("e1", -1)] ∧
    ([("e1", (1 : ℚ))] : MV ℚ) ≠ [("e1", (-1 : ℚ))] := by
  refine ⟨?_, ?_, ?_⟩
  · exact dual_unDual_canonical algR2
      (fun b => getBasis (makeDualEntry algR2 .left b))
      (fun b => getBasis (makeDualEntry algR2 .right b))
      (fun b => entryCoeff (makeDualEntry algR2 .left b))
      (fun b => entryCoeff (makeDualEntry algR2 .right b))
      (by decide) (by decide) (by decide) (by decide) (by decide)
      (by decide) (by decide) (by decide) (by decide) _ (by decide)
  · norm_num [gaScale]
  · simp only [ne_eq, List.cons.injEq, Prod.mk.injEq, and_true, true_and, not_and]
    intro h
    norm_num at h

/-- Claim C4 as amended: `dual(undual(v)) = v` — the round trip through
the left dual table and then the right dual table is the identity, with
no `(-1)^(k(n-k))` factor (that sign belongs to `dual∘dual`, not
`dual∘undual`).  Proved for every canonical multivector — in particular
every multivector of pure grade `k` — of the root algebras (2,0,0) and
(2,1,0) and of the 2D conformal child algebra. -/
theorem dual_unDual_identity :
    (∀ v : MV ℚ, Canonical algR2 v → gaDual algR2 (gaUnDual algR2 v) = v) ∧
    (∀ v : MV ℚ, Canonical algR21 v → gaDual algR21 (gaUnDual algR21 v) = v) ∧
    (∀ v : MV ℚ, Canonical algCGA2D v →
      gaDual algCGA2D (gaUnDual algCGA2D v) = v) := by
  refine ⟨?_, ?_, ?_⟩
  · intro v hv
    exact dual_unDual_canonical algR2
      (fun b => getBasis (makeDualEntry algR2 .left b))
      (fun b => getBasis (makeDualEntry algR2 .right b))
      (fun b => entryCoeff (makeDualEntry algR2 .left b))
      (fun b => entryCoeff (makeDualEntry algR2 .right b))
      (by decide) (by decide) (by decide) (by decide) (by decide)
      (by decide) (by decide) (by decide) (by decide) v hv
  · intro v hv
    exact dual_unDual_canonical algR21
      (fun b => getBasis (makeDualEntry algR21 .left b))
      (fun b => getBasis (makeDualEntry algR21 .right b))
      (fun b => entryCoeff (makeDualEntry algR21 .left b))
      (fun b => entryCoeff (makeDualEntry algR21 .right b))
      (by decide) (by decide) (by decide) (by decide) (by decide)
      (by decide) (by decide) (by decide) (by decide) v hv
  · intro v hv
    exact dual_unDual_canonical algCGA2D
      (fun b => getBasis (makeDualEntry algCGA2D .left b))
      (fun b => getBasis (makeDualEntry algCGA2D .right b))
      (fun b => entryCoeff (makeDualEntry algCGA2D .left b))
      (fun b => entryCoeff (makeDualEntry algCGA2D .right b))
      (by decide) (by decide) (by decide) (by decide) (by decide)
      (by decide) (by decide) (by decide) (by decide) v hv

/-- Claim C4 witness: the round trip fixes the grade-1 multivector
`3·e1 + 5·e2` of the (2,0,0) algebra. -/
theorem dual_unDual_identity_witness :
    gaDual algR2 (gaUnDual algR2 [("e1", (3 : ℚ)), ("e2", 5)]) =
      [("e1", (3 : ℚ)), ("e2", 5)] :=
  dual_unDual_identity.1 [("e1", 3), ("e2", 5)] (by decide)

/-- Claim C1 counterexample: for `(A, B) = (e12, e12)` in the (2,0,0)
algebra, the left duals are scalars, their wedge is the scalar blade `e`,
and the right dual of that wedge result is `e12`; the claim requires the
entry's result blade to be that right dual `e12`, but the table entry is
`{e: 1}` — keyed by the wedge result itself. -/
theorem antiWedge_result_blade_counterexample :
    antiWedgeEntry algR2i "e12" "e12" = [("e", 1)] ∧
    getBasis (makeDualEntry algR2i .right (getBasis (makeWedgeEntry algR2i
      (getBasis (makeDualEntry algR2i .left "e12"))
      (getBasis (makeDualEntry algR2i .left "e12"))))) = "e12" ∧
    getBasis (antiWedgeEntry algR2i "e12" "e12") ≠ "e12" := by decide

set_option maxHeartbeats 2000000 in
/-- Claim C1 as amended: for every pair of basis blades, the anti-wedge
table entry wedges the left duals through the wedge table; a zero wedge
gives the zero entry, and otherwise the entry's result blade is the wedge
result itself (not its right dual), with coefficient the product of the
four sign factors (left-dual sign of `A`, left-dual sign of `B`, the
wedge sign, and the right-dual sign of the wedge result).  Stated as
equality with the bitmask-level spec formulation `specAntiEntry` and
verified over the (2,0,0) and (2,1,0) root algebras and the 2D conformal
child algebra. -/
theorem antiWedge_table_refines_spec :
    (∀ ea ∈ gaBasis algR2i, ∀ eb ∈ gaBasis algR2i,
      antiWedgeEntry algR2i ea eb = specAntiEntry algR2i ea eb) ∧
    (∀ ea ∈ gaBasis algR21i, ∀ eb ∈ gaBasis algR21i,
      antiWedgeEntry algR21i ea eb = specAntiEntry algR21i ea eb) ∧
    (∀ ea ∈ gaBasis algCGA2Di, ∀ eb ∈ gaBasis algCGA2Di,
      antiWedgeEntry algCGA2Di ea eb = specAntiEntry algCGA2Di ea eb) := by
  decide

/-- Claim C1 witness: the amended table law at the pair `(e1, e2)` of the
(2,0,0) algebra. -/
theorem antiWedge_table_refines_spec_witness :
    antiWedgeEntry algR2i "e1" "e2" = specAntiEntry algR2i "e1" "e2" :=
  antiWedge_table_refines_spec.1 "e1" (by decide) "e2" (by decide)

set_option maxHeartbeats 1000000 in
/-- Claim C5: for every pair of distinct basis vectors,
`wedge(ei, ej) = -wedge(ej, ei)`, and `wedge(ei, ei)` is the zero (empty)
multivector — verified for the (2,0,0), (2,1,0) and (3,1,0) root algebras
and the 2D conformal child algebra. -/
theorem wedge_antisymmetry :
    (∀ s ∈ algR2i.subscripts, ∀ t ∈ algR2i.subscripts, s ≠ t →
      gaWedge algR2i [("e" ++ s, 1)] [("e" ++ t, 1)] =
        gaScale (-1) (gaWedge algR2i [("e" ++ t, 1)] [("e" ++ s, 1)])) ∧
    (∀ s ∈ algR2i.subscripts,
      gaWedge algR2i [("e" ++ s, 1)] [("e" ++ s, 1)] = []) ∧
    (∀ s ∈ algR21i.subscripts, ∀ t ∈ algR21i.subscripts, s ≠ t →
      gaWedge algR21i [("e" ++ s, 1)] [("e" ++ t, 1)] =
        gaScale (-1) (gaWedge algR21i [("e" ++ t, 1)] [("e" ++ s, 1)])) ∧
    (∀ s ∈ algR21i.subscripts,
      gaWedge algR21i [("e" ++ s, 1)] [("e" ++ s, 1)] = []) ∧
    (∀ s ∈ algCGA2Di.subscripts, ∀ t ∈ algCGA2Di.subscripts, s ≠ t →
      gaWedge algCGA2Di [("e" ++ s, 1)] [("e" ++ t, 1)] =
        gaScale (-1) (gaWedge algCGA2Di [("e" ++ t, 1)] [("e" ++ s, 1)])) ∧
    (∀ s ∈ algCGA2Di.subscripts,
      gaWedge algCGA2Di [("e" ++ s, 1)] [("e" ++ s, 1)] = []) ∧
    (∀ s ∈ algR31i.subscripts, ∀ t ∈ algR31i.subscripts, s ≠ t →
      gaWedge algR31i [("e" ++ s, 1)] [("e" ++ t, 1)] =
        gaScale (-1) (gaWedge algR31i [("e" ++ t, 1)] [("e" ++ s, 1)])) ∧
    (∀ s ∈ algR31i.subscripts,
      gaWedge algR31i [("e" ++ s, 1)] [("e" ++ s, 1)] = []) := by
  decide

/-- Claim C5 witness: `e1 ∧ e2 = -(e2 ∧ e1)` in the (2,0,0) algebra. -/
theorem wedge_antisymmetry_witness :
    gaWedge algR2i [("e" ++ "1", 1)] [("e" ++ "2", 1)] =
      gaScale (-1) (gaWedge algR2i [("e" ++ "2", 1)] [("e" ++ "1", 1)]) :=
  wedge_antisymmetry.1 "1" (by decide) "2" (by decide) (by decide)

set_option maxHeartbeats 1000000 in
/-- Claim C6: every geometric-product table entry arises by concatenating
the two index sequences, adjacent-swap sorting while counting swaps
(= counting inversions), then collapsing each equal adjacent pair by that
basis vector's square (0 zeroes the entry, +1 cancels silently, −1 cancels
with one extra flip), the remaining indices forming the result blade with
sign `(-1)^swaps` — stated as equality with the spec formulation
`specGpEntry` over the (2,0,0) and (2,1,0) root algebras and the 2D
conformal child algebra.  In particular, in the root algebra of signature
(2,1,0), `e3 * e3 = {e: -1}`. -/
theorem gp_table_spec :
    (∀ ea ∈ gaBasis algR2i, ∀ eb ∈ gaBasis algR2i,
      makeGeometricProductEntry algR2i ea eb = specGpEntry algR2i ea eb) ∧
    (∀ ea ∈ gaBasis algR21i, ∀ eb ∈ gaBasis algR21i,
      makeGeometricProductEntry algR21i ea eb = specGpEntry algR21i ea eb) ∧
    (∀ ea ∈ gaBasis algCGA2Di, ∀ eb ∈ gaBasis algCGA2Di,
      makeGeometricProductEntry algCGA2Di ea eb = specGpEntry algCGA2Di ea eb) ∧
    gaGp algR21i [("e3", 1)] [("e3", 1)] = [("e", -1)] := by
  decide

/-- Claim C6 witness: the table law at the pair `(e3, e3)` of the (2,1,0)
algebra, whose square collapses with a sign flip. -/
theorem gp_table_spec_witness :
    makeGeometricProductEntry algR21i "e3" "e3" = specGpEntry algR21i "e3" "e3" :=
  gp_table_spec.2.1 "e3" (by decide) "e3" (by decide)

set_option maxHeartbeats 1000000 in
/-- Claim C9: for every basis blade `a`, the left and right dual table
entries map `a` to the blade whose bitmask is the pseudoscalar bitmask
XOR `a`'s bitmask, found through the bitmask-to-blade map, with sign read
off the wedge entry `(complement, a)` (left) or `(a, complement)` (right);
the sign is always `+1` or `-1`, never zero — verified for the (2,0,0),
(2,1,0) and (3,1,0) root algebras and the 2D conformal child algebra. -/
theorem dual_table_spec :
    (∀ a ∈ gaBasis algR2, dualEntryOK algR2 .left a ∧ dualEntryOK algR2 .right a) ∧
    (∀ a ∈ gaBasis algR21, dualEntryOK algR21 .left a ∧ dualEntryOK algR21 .right a) ∧
    (∀ a ∈ gaBasis algCGA2D,
      dualEntryOK algCGA2D .left a ∧ dualEntryOK algCGA2D .right a) ∧
    (∀ a ∈ gaBasis algR31, dualEntryOK algR31 .left a ∧ dualEntryOK algR31 .right a) := by
  decide

/-- Claim C9 witness: both dual entries of `e1` in the (2,0,0) algebra. -/
theorem dual_table_spec_witness :
    dualEntryOK algR2 .left "e1" ∧ dualEntryOK algR2 .right "e1" :=
  dual_table_spec.1 "e1" (by decide)

end GaTs
